import Mathlib

/-!
Shallow embedding of the document-QA pipeline (`src/vectorstore.py`,
`src/chatbot.py`).  Python strings are modelled as `List Char`; the
external providers (embedding, vector index, reranker, generation) are
modelled as oracle function parameters, and the number of calls made to
each provider is returned explicitly so that "does not call" statements
can be proved.
-/

namespace RagQA

/-- A Python string, modelled as its list of characters. -/
abbrev PyStr := List Char

/-- Conversion from a Lean string literal to the model. -/
def pyStr (s : String) : PyStr := s.toList

/-- The literal sentence delimiter `". "` used by `_split_text`. -/
def dotSpace : PyStr := ['.', ' ']

/-- Python's `str.strip()` from the left: drop leading whitespace. -/
def stripLeft (l : PyStr) : PyStr := l.dropWhile Char.isWhitespace

/-- Python's `str.strip()`: drop leading and trailing whitespace. -/
def strip (l : PyStr) : PyStr :=
  ((stripLeft l).reverse.dropWhile Char.isWhitespace).reverse

/-- Python's `text.split(". ")`: split on each non-overlapping occurrence
of the two-character delimiter, scanning left to right.  On the empty
string it returns `[[]]`, exactly as Python's `"".split(". ") == [""]`. -/
def splitDot : List Char → List (List Char)
  | '.' :: ' ' :: rest => [] :: splitDot rest
  | c :: rest =>
      match splitDot rest with
      | [] => [[c]]
      | f :: fs => (c :: f) :: fs
  | [] => [[]]

/-- The accumulation loop of `VectorStore._split_text`: iterate over the
sentences; if the running chunk plus the next sentence stays under
`chunk_size`, extend the running chunk with `sentence + ". "`, otherwise
flush the stripped running chunk and restart from the sentence.  After
the loop, a non-empty running chunk is flushed. -/
def splitLoop (chunk_size : Nat) : List PyStr → PyStr → List PyStr
  | [], current_chunk =>
      if current_chunk = [] then [] else [strip current_chunk]
  | sentence :: rest, current_chunk =>
      if current_chunk.length + sentence.length < chunk_size then
        splitLoop chunk_size rest (current_chunk ++ sentence ++ dotSpace)
      else
        strip current_chunk :: splitLoop chunk_size rest (sentence ++ dotSpace)

/-- `VectorStore._split_text(text, chunk_size=1000)`. -/
def split_text (text : PyStr) (chunk_size : Nat := 1000) : List PyStr :=
  splitLoop chunk_size (splitDot text) []

/-- Python's slice `l[a:b]` for natural bounds (as used in the batching
loops, where the stride is positive and the bounds are never negative). -/
def pySlice (l : List α) (a b : Nat) : List α := (l.drop a).take (b - a)

/-- The batches visited by a Python loop `for i in range(0, len(l), bs)`
taking `l[i : i+bs]` each time.  Both `_embed_chunks` (bs = 90, whose
`min(i + batch_size, total)` is a no-op because Python slicing already
clamps at the length) and `_index_chunks` (bs = 100) iterate this way. -/
def rangeBatches (bs : Nat) (l : List α) (i : Nat) : List (List α) :=
  if h : i < l.length ∧ 0 < bs then
    pySlice l i (i + bs) :: rangeBatches bs l (i + bs)
  else []
termination_by l.length - i
decreasing_by omega

/-- `VectorStore._embed_chunks(chunks, batch_size=90)`: embed the chunks
batch by batch, extending the accumulated embedding list with each
batch's result.  The provider call `self.co.embed(texts=batch, ...)` is
the oracle `embed` (generic in the text type `τ`; the pipeline uses
`τ = PyStr`). -/
def embed_chunks (embed : List τ → List V) (chunks : List τ)
    (batch_size : Nat := 90) : List V :=
  (rangeBatches batch_size chunks 0).foldl
    (fun embeddings batch => embeddings ++ embed batch) []

/-- A vector-index entry as built by `_index_chunks`:
`{"id": str(i), "values": embedding, "metadata": {"text": chunk}}`. -/
structure Entry (V : Type) where
  id : PyStr
  values : V
  text : PyStr
deriving DecidableEq

/-- Python's `str(i)` for a natural number. -/
def strNat (i : Nat) : PyStr := (Nat.repr i).toList

/-- The `vectors_to_upsert` list of `_index_chunks`: enumerate
`zip(chunks, embeddings)` and build one entry per pair. -/
def vectors_to_upsert (chunks : List PyStr) (embeddings : List V) :
    List (Entry V) :=
  (chunks.zip embeddings).enum.map fun p => ⟨strNat p.1, p.2.2, p.2.1⟩

/-- One upsert of a single vector into the index: replace the entry with
the same id if present, otherwise add the entry. -/
def upsertOne (content : List (Entry V)) (e : Entry V) : List (Entry V) :=
  if content.any (fun x => x.id = e.id) then
    content.map fun x => if x.id = e.id then e else x
  else content ++ [e]

/-- `VectorStore._index_chunks(chunks, embeddings)`, at the level of the
remote index's content: the pre-existing content `old` is cleared by
`self.index.delete(delete_all=True)`, then `vectors_to_upsert` is
upserted in batches of 100. -/
def index_chunks (chunks : List PyStr) (embeddings : List V)
    (old : List (Entry V)) : List (Entry V) :=
  let vectors := vectors_to_upsert chunks embeddings
  let cleared : List (Entry V) := []
  (rangeBatches 100 vectors 0).foldl
    (fun content batch => batch.foldl upsertOne content) cleared

/-- Outcome of `VectorStore.process_document`: the two early returns, or
the index content after `_index_chunks`. -/
inductive ProcessResult (V : Type) where
  | noChunks : ProcessResult V
  | noEmbeddings : ProcessResult V
  | indexed : List (Entry V) → ProcessResult V
deriving DecidableEq

/-- `VectorStore.process_document`, applied to the text extracted from
the PDF (extraction itself is the external PyMuPDF library): split with
the default chunk size, return early on an empty chunk list, embed with
the default batch size, return early on an empty embedding list, else
index the chunks over the previous index content `old`. -/
def process_document (embed : List PyStr → List V) (old : List (Entry V))
    (pdf_text : PyStr) : ProcessResult V :=
  let chunks := split_text pdf_text
  if chunks = [] then .noChunks
  else
    let embeddings := embed_chunks embed chunks
    if embeddings.isEmpty then .noEmbeddings
    else .indexed (index_chunks chunks embeddings old)

/-- A match's metadata dictionary `{"text": ...}` as stored by
`_index_chunks` and returned by `index.query(..., include_metadata=True)`. -/
structure Meta where
  text : PyStr
deriving DecidableEq

/-- `self.retrieve_top_k` in `VectorStore.__init__`. -/
def retrieve_top_k : Nat := 10

/-- `self.rerank_top_k` in `VectorStore.__init__`. -/
def rerank_top_k : Nat := 3

/-- Number of calls `VectorStore.retrieve` makes to each external
provider: query embedding, index query, rerank. -/
structure RetrieveCalls where
  embed : Nat
  query : Nat
  rerank : Nat
deriving DecidableEq

/-- `VectorStore.retrieve(query)`.  Oracles: `embedQuery` is
`co.embed(texts=[query], input_type="search_query")` returning the one
query vector; `queryIndex` is `index.query(vector, top_k,
include_metadata=True)` returning the matches' metadata; `rerank` is
`co.rerank(query, documents, top_n)` returning the `result.index`
positions in rank order.  `index = none` models `self.index is None`
(no document ingested).  Alongside the returned metadata list, the
number of calls made to each provider is reported. -/
def retrieve (embedQuery : PyStr → V) (queryIndex : V → Nat → List Meta)
    (rerank : PyStr → List PyStr → Nat → List Nat)
    (index : Option Unit) (query : PyStr) : List Meta × RetrieveCalls :=
  match index with
  | none => ([], ⟨0, 0, 0⟩)
  | some _ =>
    let query_emb := embedQuery query
    let res_matches := queryIndex query_emb retrieve_top_k
    let docs_to_rerank := res_matches.map Meta.text
    if docs_to_rerank = [] then ([], ⟨1, 1, 0⟩)
    else
      let results := rerank query docs_to_rerank rerank_top_k
      (results.map (fun i => res_matches.getD i ⟨[]⟩), ⟨1, 1, 1⟩)

/-- The de-duplication step of `Chatbot.respond`: an insertion-ordered
dict keyed by `doc['text']`, to which a document is added only when its
text has not been seen; the dict's values are the first-seen document
for each distinct text, in first-seen order. -/
def dedupAux (seen : List PyStr) : List Meta → List Meta
  | [] => []
  | d :: rest =>
      if d.text ∈ seen then dedupAux seen rest
      else d :: dedupAux (d.text :: seen) rest

/-- `final_documents = list(unique_docs.values())` in `Chatbot.respond`. -/
def dedupByText (docs : List Meta) : List Meta := dedupAux [] docs

/-- Number of calls `Chatbot.respond` makes to each external provider. -/
structure RespondCalls where
  embed : Nat
  query : Nat
  rerank : Nat
  gen : Nat
deriving DecidableEq

/-- `Chatbot.respond(user_message)`.  The search queries are the
one-element list `[user_message]`; the retrieval loop extends the
retrieved-document list once per query; the retrieved documents are
de-duplicated by text; finally `co.chat_stream(message=user_message,
documents=final_documents, ...)` — the oracle `chat` — is invoked
unconditionally and its stream is returned. -/
def respond (embedQuery : PyStr → V) (queryIndex : V → Nat → List Meta)
    (rerank : PyStr → List PyStr → Nat → List Nat) (index : Option Unit)
    (chat : PyStr → List Meta → S) (user_message : PyStr) :
    S × RespondCalls :=
  let search_queries := [user_message]
  let retrieved := search_queries.foldl
    (fun (acc : List Meta × RetrieveCalls) q =>
      let r := retrieve embedQuery queryIndex rerank index q
      (acc.1 ++ r.1, ⟨acc.2.embed + r.2.embed, acc.2.query + r.2.query,
        acc.2.rerank + r.2.rerank⟩))
    ([], ⟨0, 0, 0⟩)
  let final_documents := dedupByText retrieved.1
  (chat user_message final_documents,
    ⟨retrieved.2.embed, retrieved.2.query, retrieved.2.rerank, 1⟩)

/-- The invariant the running chunk of `splitLoop` maintains: it is
empty, or it ends in `". "` and is either short (at most one character
over the cap, so that stripping brings it within the cap) or a single
oversized fragment plus its delimiter. -/
def ChunkInv (cs : Nat) (allFrags : List PyStr) (current : PyStr) : Prop :=
  current = [] ∨
    ∃ t, current = t ++ dotSpace ∧
      (current.length ≤ cs + 1 ∨
        ∃ s ∈ allFrags, cs ≤ s.length ∧ current = s ++ dotSpace)

/-- Decimal digit value of a character (inverse of `Nat.digitChar` on
`'0'`–`'9'`). -/
def decDigit (c : Char) : Nat := c.toNat - '0'.toNat

/-- Decode a decimal digit string back to a natural number. -/
def decodeDec (l : List Char) : Nat :=
  l.foldl (fun a c => 10 * a + decDigit c) 0

/-! ### Lemmas about the Chunker -/

theorem strip_nil : strip [] = [] := rfl

theorem stripLeft_length_le (l : PyStr) : (stripLeft l).length ≤ l.length :=
  (List.dropWhile_sublist _).length_le

theorem stripLeft_append_dotSpace (t : PyStr) :
    stripLeft (t ++ dotSpace) = stripLeft t ++ dotSpace := by
  unfold stripLeft dotSpace
  rw [List.dropWhile_append]
  split
  · next h =>
    rw [List.isEmpty_iff] at h
    simp [h, List.dropWhile]
  · rfl

theorem strip_append_dotSpace (t : PyStr) :
    strip (t ++ dotSpace) = stripLeft t ++ ['.'] := by
  unfold strip
  rw [stripLeft_append_dotSpace]
  have h1 : (stripLeft t ++ dotSpace).reverse = ' ' :: '.' :: (stripLeft t).reverse := by
    simp [dotSpace]
  rw [h1]
  have h2 : List.dropWhile Char.isWhitespace (' ' :: '.' :: (stripLeft t).reverse) =
      '.' :: (stripLeft t).reverse := by
    simp [List.dropWhile]
  rw [h2]
  simp

theorem strip_length_le (t : PyStr) :
    (strip (t ++ dotSpace)).length ≤ t.length + 1 := by
  rw [strip_append_dotSpace]
  have := stripLeft_length_le t
  simp only [List.length_append, List.length_cons, List.length_nil]
  omega

theorem splitDot_ne_nil (l : List Char) : splitDot l ≠ [] := by
  rw [splitDot.eq_def]
  split
  · simp
  · split <;> simp
  · simp

theorem splitLoop_ne_nil (cs : Nat) :
    ∀ (sentences : List PyStr) (current : PyStr),
      current ≠ [] ∨ sentences ≠ [] → splitLoop cs sentences current ≠ [] := by
  intro sentences
  induction sentences with
  | nil =>
    intro current h
    have hc : current ≠ [] := by
      rcases h with h | h
      · exact h
      · exact absurd rfl h
    simp [splitLoop, hc]
  | cons s rest ih =>
    intro current _
    rw [splitLoop]
    split
    · refine ih _ (Or.inl ?_)
      simp [dotSpace]
    · simp

theorem split_text_ne_nil (text : PyStr) (cs : Nat) :
    split_text text cs ≠ [] :=
  splitLoop_ne_nil cs (splitDot text) [] (Or.inr (splitDot_ne_nil text))

theorem strip_emit_bound {cs : Nat} {allFrags : List PyStr} {current : PyStr}
    (hinv : ChunkInv cs allFrags current) :
    (strip current).length ≤ cs ∨
      ∃ s ∈ allFrags, cs ≤ s.length ∧ strip current = strip (s ++ dotSpace) := by
  rcases hinv with h | ⟨t, ht, hcase⟩
  · left; simp [h, strip_nil]
  · rcases hcase with hshort | ⟨s, hs, hlen, hform⟩
    · left
      rw [ht]
      have h1 := strip_length_le t
      have h2 : current.length = t.length + 2 := by simp [ht, dotSpace]
      omega
    · right
      exact ⟨s, hs, hlen, by rw [hform]⟩

theorem splitLoop_chunk_bound (cs : Nat) (allFrags : List PyStr) :
    ∀ (sentences : List PyStr) (current : PyStr),
      (∀ s ∈ sentences, s ∈ allFrags) →
      ChunkInv cs allFrags current →
      ∀ chunk ∈ splitLoop cs sentences current,
        chunk.length ≤ cs ∨
          ∃ s ∈ allFrags, cs ≤ s.length ∧ chunk = strip (s ++ dotSpace) := by
  intro sentences
  induction sentences with
  | nil =>
    intro current _ hinv chunk hchunk
    rw [splitLoop] at hchunk
    split at hchunk
    · simp at hchunk
    · simp only [List.mem_singleton] at hchunk
      subst hchunk
      exact strip_emit_bound hinv
  | cons s rest ih =>
    intro current hsub hinv chunk hchunk
    rw [splitLoop] at hchunk
    split at hchunk
    · next hlt =>
      refine ih _ (fun x hx => hsub x (List.mem_cons_of_mem _ hx)) ?_ chunk hchunk
      refine Or.inr ⟨current ++ s, by rw [List.append_assoc], Or.inl ?_⟩
      simp only [List.length_append]
      have : dotSpace.length = 2 := rfl
      omega
    · next hge =>
      rcases List.mem_cons.mp hchunk with hc | hc
      · subst hc
        exact strip_emit_bound hinv
      · refine ih _ (fun x hx => hsub x (List.mem_cons_of_mem _ hx)) ?_ chunk hc
        by_cases hlen : cs ≤ s.length
        · exact Or.inr ⟨s, rfl, Or.inr ⟨s, hsub s (List.mem_cons_self _ _), hlen, rfl⟩⟩
        · refine Or.inr ⟨s, rfl, Or.inl ?_⟩
          simp only [List.length_append]
          have : dotSpace.length = 2 := rfl
          omega

/-! ### Lemmas about batching -/

theorem pySlice_batch (l : List α) (i bs : Nat) :
    pySlice l i (i + bs) = (l.drop i).take bs := by
  unfold pySlice
  rw [Nat.add_sub_cancel_left]

theorem rangeBatches_nil {bs : Nat} {l : List α} {i : Nat}
    (h : ¬(i < l.length ∧ 0 < bs)) : rangeBatches bs l i = [] := by
  rw [rangeBatches]
  simp [h]

theorem rangeBatches_cons {bs : Nat} {l : List α} {i : Nat}
    (h : i < l.length ∧ 0 < bs) :
    rangeBatches bs l i = pySlice l i (i + bs) :: rangeBatches bs l (i + bs) := by
  rw [rangeBatches]
  simp [h]

theorem rangeBatches_length_le (bs : Nat) (l : List α) :
    ∀ (n i : Nat), l.length - i ≤ n →
      ∀ b ∈ rangeBatches bs l i, b.length ≤ bs := by
  intro n
  induction n with
  | zero =>
    intro i hi b hb
    rw [rangeBatches_nil (by omega)] at hb
    simp at hb
  | succ n ihn =>
    intro i hi b hb
    by_cases h : i < l.length ∧ 0 < bs
    · rw [rangeBatches_cons h] at hb
      rcases List.mem_cons.mp hb with hb | hb
      · subst hb
        rw [pySlice_batch]
        simpa using Nat.min_le_left bs (l.drop i).length
      · exact ihn (i + bs) (by omega) b hb
    · rw [rangeBatches_nil h] at hb
      simp at hb

theorem batch_mem_length_le {bs : Nat} {l : List α} {b : List α}
    (hb : b ∈ rangeBatches bs l 0) : b.length ≤ bs :=
  rangeBatches_length_le bs l l.length 0 (by omega) b hb

theorem embed_fold_map (f : α → β) (l : List α) (bs : Nat) (hbs : 0 < bs) :
    ∀ (n i : Nat), l.length - i ≤ n → ∀ acc : List β,
      (rangeBatches bs l i).foldl (fun e b => e ++ b.map f) acc =
        acc ++ (l.drop i).map f := by
  intro n
  induction n with
  | zero =>
    intro i hi acc
    rw [rangeBatches_nil (by omega), List.drop_eq_nil_of_le (by omega)]
    simp
  | succ n ihn =>
    intro i hi acc
    by_cases h : i < l.length
    · rw [rangeBatches_cons ⟨h, hbs⟩]
      simp only [List.foldl_cons]
      rw [ihn (i + bs) (by omega)]
      rw [pySlice_batch]
      have hdrop : l.drop (i + bs) = (l.drop i).drop bs := by
        rw [List.drop_drop]
      rw [hdrop, List.append_assoc, ← List.map_append, List.take_append_drop]
    · rw [rangeBatches_nil (fun hc => h hc.1), List.drop_eq_nil_of_le (by omega)]
      simp

/-- Batching is invisible to the output: when the provider embeds each
text independently (`fun ts => ts.map f`), the batched embedding of any
chunk list is the pointwise embedding of the whole list. -/
theorem embed_chunks_map (f : α → β) (chunks : List α) (bs : Nat)
    (hbs : 0 < bs) :
    embed_chunks (fun ts => ts.map f) chunks bs = chunks.map f := by
  unfold embed_chunks
  rw [embed_fold_map f chunks bs hbs chunks.length 0 (by omega)]
  simp

/-! ### Decimal representation: `str(i)` is injective -/

theorem toDigitsCore_append (b : Nat) :
    ∀ (fuel n : Nat) (ds : List Char),
      Nat.toDigitsCore b fuel n ds = Nat.toDigitsCore b fuel n [] ++ ds := by
  intro fuel
  induction fuel with
  | zero => intro n ds; simp [Nat.toDigitsCore]
  | succ fuel ih =>
    intro n ds
    simp only [Nat.toDigitsCore]
    split
    · rfl
    · rw [ih (n / b) (Nat.digitChar (n % b) :: ds),
        ih (n / b) [Nat.digitChar (n % b)], List.append_assoc]
      rfl

theorem toDigitsCore_fuel :
    ∀ (n fuel fuel' : Nat), n < fuel → n < fuel' →
      Nat.toDigitsCore 10 fuel n [] = Nat.toDigitsCore 10 fuel' n [] := by
  intro n
  induction n using Nat.strong_induction_on with
  | _ n ih =>
    intro fuel fuel' hf hf'
    match fuel, fuel' with
    | f + 1, f' + 1 =>
      simp only [Nat.toDigitsCore]
      split
      · rfl
      · next hne =>
        have hn10 : 10 ≤ n := by
          rcases Nat.lt_or_ge n 10 with h | h
          · exact absurd (Nat.div_eq_of_lt h) hne
          · exact h
        have hlt : n / 10 < n := Nat.div_lt_self (by omega) (by omega)
        rw [toDigitsCore_append 10 f, toDigitsCore_append 10 f',
          ih (n / 10) hlt f f' (by omega) (by omega)]

theorem toDigits_small {n : Nat} (h : n < 10) :
    Nat.toDigits 10 n = [Nat.digitChar n] := by
  unfold Nat.toDigits
  simp only [Nat.toDigitsCore]
  rw [Nat.div_eq_of_lt h]
  simp [Nat.mod_eq_of_lt h]

theorem toDigits_step {n : Nat} (h : 10 ≤ n) :
    Nat.toDigits 10 n = Nat.toDigits 10 (n / 10) ++ [Nat.digitChar (n % 10)] := by
  conv_lhs => unfold Nat.toDigits
  simp only [Nat.toDigitsCore]
  have hne : ¬(n / 10 = 0) := by
    have : 1 ≤ n / 10 := (Nat.one_le_div_iff (by omega)).mpr h
    omega
  rw [if_neg hne, toDigitsCore_append 10 n]
  have hlt : n / 10 < n := Nat.div_lt_self (by omega) (by omega)
  rw [toDigitsCore_fuel (n / 10) n (n / 10 + 1) hlt (Nat.lt_succ_self _)]
  rfl

theorem decDigit_digitChar : ∀ m, m < 10 → decDigit (Nat.digitChar m) = m := by
  decide

theorem decodeDec_append_singleton (xs : List Char) (c : Char) :
    decodeDec (xs ++ [c]) = 10 * decodeDec xs + decDigit c := by
  unfold decodeDec
  rw [List.foldl_append]
  rfl

theorem decodeDec_toDigits : ∀ n : Nat, decodeDec (Nat.toDigits 10 n) = n := by
  intro n
  induction n using Nat.strong_induction_on with
  | _ n ih =>
    rcases Nat.lt_or_ge n 10 with h | h
    · rw [toDigits_small h]
      show 10 * 0 + decDigit (Nat.digitChar n) = n
      rw [decDigit_digitChar n h]
      omega
    · rw [toDigits_step h, decodeDec_append_singleton,
        ih (n / 10) (Nat.div_lt_self (by omega) (by omega)),
        decDigit_digitChar (n % 10) (Nat.mod_lt n (by omega))]
      omega

theorem strNat_eq_toDigits (n : Nat) : strNat n = Nat.toDigits 10 n := rfl

theorem strNat_injective : Function.Injective strNat := by
  intro a b h
  have : decodeDec (Nat.toDigits 10 a) = decodeDec (Nat.toDigits 10 b) := by
    rw [← strNat_eq_toDigits, ← strNat_eq_toDigits, h]
  rwa [decodeDec_toDigits, decodeDec_toDigits] at this

/-! ### Lemmas about indexing -/

theorem upsertOne_fresh {content : List (Entry V)} {e : Entry V}
    (h : ∀ c ∈ content, c.id ≠ e.id) :
    upsertOne content e = content ++ [e] := by
  unfold upsertOne
  rw [if_neg]
  simp only [List.any_eq_true, decide_eq_true_eq, not_exists, not_and]
  exact fun c hc => h c hc

theorem upsert_batch (V : Type) :
    ∀ (batch content : List (Entry V)),
      (∀ e ∈ batch, ∀ c ∈ content, c.id ≠ e.id) →
      (batch.map Entry.id).Nodup →
      batch.foldl upsertOne content = content ++ batch := by
  intro batch
  induction batch with
  | nil => intro content _ _; simp
  | cons e rest ih =>
    intro content hdisj hnodup
    simp only [List.foldl_cons]
    rw [upsertOne_fresh (hdisj e (List.mem_cons_self _ _))]
    rw [ih (content ++ [e]) ?_ ((List.nodup_cons.mp hnodup).2)]
    · simp
    · intro x hx c hc
      rcases List.mem_append.mp hc with hc | hc
      · exact hdisj x (List.mem_cons_of_mem _ hx) c hc
      · simp only [List.mem_singleton] at hc
        subst hc
        intro hce
        exact (List.nodup_cons.mp hnodup).1 (hce ▸ List.mem_map_of_mem Entry.id hx)

theorem upsert_fold (V : Type) (vectors : List (Entry V)) :
    ∀ (n i : Nat), vectors.length - i ≤ n →
      ((vectors.drop i).map Entry.id).Nodup →
      ∀ content : List (Entry V),
        (∀ e ∈ vectors.drop i, ∀ c ∈ content, c.id ≠ e.id) →
        (rangeBatches 100 vectors i).foldl
            (fun c b => b.foldl upsertOne c) content =
          content ++ vectors.drop i := by
  intro n
  induction n with
  | zero =>
    intro i hi _ content _
    rw [rangeBatches_nil (by omega), List.drop_eq_nil_of_le (by omega)]
    simp
  | succ n ihn =>
    intro i hi hnodup content hdisj
    by_cases h : i < vectors.length
    · rw [rangeBatches_cons ⟨h, by omega⟩]
      simp only [List.foldl_cons]
      have hsplit : vectors.drop i =
          (vectors.drop i).take 100 ++ vectors.drop (i + 100) := by
        rw [← List.drop_drop, List.take_append_drop]
      rw [pySlice_batch]
      have hnodup' : (((vectors.drop i).take 100).map Entry.id ++
          (vectors.drop (i + 100)).map Entry.id).Nodup := by
        rw [← List.map_append, ← hsplit]; exact hnodup
      obtain ⟨hnb, hnr, hdj⟩ := List.nodup_append.mp hnodup'
      rw [upsert_batch V _ content ?_ hnb]
      · rw [ihn (i + 100) (by omega) hnr (content ++ (vectors.drop i).take 100) ?_]
        · rw [List.append_assoc, ← hsplit]
        · intro e he c hc
          rcases List.mem_append.mp hc with hc | hc
          · exact hdisj e (hsplit ▸ List.mem_append_right _ he) c hc
          · intro hce
            exact hdj (hce ▸ List.mem_map_of_mem Entry.id hc)
              (List.mem_map_of_mem Entry.id he)
      · intro e he c hc
        exact hdisj e (hsplit ▸ List.mem_append_left _ he) c hc
    · rw [rangeBatches_nil (fun hc => h hc.1),
        List.drop_eq_nil_of_le (by omega)]
      simp

theorem vectors_to_upsert_ids (chunks : List PyStr) (embeddings : List V) :
    (vectors_to_upsert chunks embeddings).map Entry.id =
      (List.range (chunks.zip embeddings).length).map strNat := by
  unfold vectors_to_upsert
  rw [List.map_map]
  have : (Entry.id ∘ fun p : Nat × (PyStr × V) => Entry.mk (strNat p.1) p.2.2 p.2.1)
      = strNat ∘ Prod.fst := rfl
  rw [this, ← List.map_map, List.enum_map_fst]

theorem vectors_to_upsert_texts (chunks : List PyStr) (embeddings : List V) :
    (vectors_to_upsert chunks embeddings).map Entry.text =
      (chunks.zip embeddings).map Prod.fst := by
  unfold vectors_to_upsert
  rw [List.map_map]
  have : (Entry.text ∘ fun p : Nat × (PyStr × V) => Entry.mk (strNat p.1) p.2.2 p.2.1)
      = Prod.fst ∘ Prod.snd := rfl
  rw [this, ← List.map_map, List.enum_map_snd]

theorem vectors_to_upsert_ids_nodup (chunks : List PyStr) (embeddings : List V) :
    ((vectors_to_upsert chunks embeddings).map Entry.id).Nodup := by
  rw [vectors_to_upsert_ids]
  exact (List.nodup_range _).map strNat_injective

/-- `_index_chunks` replaces the index content wholesale: whatever `old`
content was there, the content afterwards is exactly the enumerated
entry list for the new chunks. -/
theorem index_chunks_eq (chunks : List PyStr) (embeddings : List V)
    (old : List (Entry V)) :
    index_chunks chunks embeddings old = vectors_to_upsert chunks embeddings := by
  unfold index_chunks
  have := upsert_fold V (vectors_to_upsert chunks embeddings)
    (vectors_to_upsert chunks embeddings).length 0 (by omega)
    (by simpa using vectors_to_upsert_ids_nodup chunks embeddings)
    [] (by simp)
  simpa using this

/-! ### Lemmas about de-duplication -/

theorem dedupAux_sublist : ∀ (docs : List Meta) (seen : List PyStr),
    (dedupAux seen docs).Sublist docs := by
  intro docs
  induction docs with
  | nil => intro seen; simp [dedupAux]
  | cons d rest ih =>
    intro seen
    rw [dedupAux]
    split
    · exact (ih seen).cons d
    · exact (ih (d.text :: seen)).cons₂ d

theorem dedupAux_find : ∀ (docs : List Meta) (seen : List PyStr),
    ∀ d' ∈ dedupAux seen docs,
      d'.text ∉ seen ∧
        docs.find? (fun d => decide (d.text = d'.text)) = some d' := by
  intro docs
  induction docs with
  | nil => intro seen d' h; simp [dedupAux] at h
  | cons d rest ih =>
    intro seen d' h
    rw [dedupAux] at h
    split at h
    · next hseen =>
      obtain ⟨hnot, hfind⟩ := ih seen d' h
      refine ⟨hnot, ?_⟩
      rw [List.find?_cons]
      have hne : ¬(d.text = d'.text) := fun hc => hnot (hc ▸ hseen)
      simp [hne, hfind]
    · next hseen =>
      rcases List.mem_cons.mp h with hd | hd
      · subst hd
        refine ⟨hseen, ?_⟩
        rw [List.find?_cons]
        simp
      · obtain ⟨hnot, hfind⟩ := ih (d.text :: seen) d' hd
        have hne : ¬(d.text = d'.text) := by
          intro hc
          exact hnot (by rw [← hc]; exact List.mem_cons_self _ _)
        refine ⟨fun hc => hnot (List.mem_cons_of_mem _ hc), ?_⟩
        rw [List.find?_cons]
        simp [hne, hfind]

theorem dedupAux_texts_nodup : ∀ (docs : List Meta) (seen : List PyStr),
    ((dedupAux seen docs).map Meta.text).Nodup := by
  intro docs
  induction docs with
  | nil => intro seen; simp [dedupAux]
  | cons d rest ih =>
    intro seen
    rw [dedupAux]
    split
    · exact ih seen
    · simp only [List.map_cons, List.nodup_cons]
      refine ⟨?_, ih (d.text :: seen)⟩
      intro hmem
      obtain ⟨d', hd', htext⟩ := List.mem_map.mp hmem
      exact (dedupAux_find rest (d.text :: seen) d' hd').1
        (htext ▸ List.mem_cons_self _ _)

theorem dedupAux_covers : ∀ (docs : List Meta) (seen : List PyStr),
    ∀ d ∈ docs, d.text ∈ seen ∨
      ∃ d' ∈ dedupAux seen docs, d'.text = d.text := by
  intro docs
  induction docs with
  | nil => intro seen d h; simp at h
  | cons d0 rest ih =>
    intro seen d h
    rw [dedupAux]
    rcases List.mem_cons.mp h with hd | hd
    · subst hd
      split
      · next hseen => exact Or.inl hseen
      · exact Or.inr ⟨d, List.mem_cons_self _ _, rfl⟩
    · split
      · next hseen =>
        rcases ih seen d hd with h1 | ⟨d', hd', ht⟩
        · exact Or.inl h1
        · exact Or.inr ⟨d', hd', ht⟩
      · next hseen =>
        rcases ih (d0.text :: seen) d hd with h1 | ⟨d', hd', ht⟩
        · rcases List.mem_cons.mp h1 with h2 | h2
          · exact Or.inr ⟨d0, List.mem_cons_self _ _, h2.symm⟩
          · exact Or.inl h2
        · exact Or.inr ⟨d', List.mem_cons_of_mem _ hd', ht⟩

theorem dedupByText_pair (d1 d2 : Meta) (h : d1.text = d2.text) :
    dedupByText [d1, d2] = [d1] := by
  unfold dedupByText dedupAux
  simp [dedupAux, h]

/-! ### Lemmas about the ingestion pipeline -/

theorem process_document_eq (f : PyStr → V) (old : List (Entry V))
    (text : PyStr) (h : split_text text ≠ []) :
    process_document (fun ts => ts.map f) old text =
      .indexed (vectors_to_upsert (split_text text) ((split_text text).map f)) := by
  simp only [process_document]
  rw [if_neg h, embed_chunks_map f _ 90 (by omega)]
  have hne : ((split_text text).map f).isEmpty = false := by
    rcases he : split_text text with _ | ⟨c, cs⟩
    · exact absurd he h
    · rfl
  rw [hne]
  simp only [Bool.false_eq_true, if_false]
  rw [index_chunks_eq]

theorem vectors_to_upsert_cons (c : PyStr) (v : V) (cs : List PyStr)
    (vs : List V) :
    vectors_to_upsert (c :: cs) (v :: vs) =
      Entry.mk (pyStr "0") v c ::
        (List.enumFrom 1 (cs.zip vs)).map
          (fun p => ⟨strNat p.1, p.2.2, p.2.1⟩) := by
  unfold vectors_to_upsert
  rw [List.zip_cons_cons, List.enum_cons]
  simp only [List.map_cons]
  exact rfl

theorem splitDot_replicate (n : Nat) :
    splitDot (List.replicate n 'a') = [List.replicate n 'a'] := by
  induction n with
  | zero => rfl
  | succ n ih =>
    rw [List.replicate_succ]
    rw [show splitDot ('a' :: List.replicate n 'a') =
      (match splitDot (List.replicate n 'a') with
        | [] => [['a']]
        | f :: fs => ('a' :: f) :: fs) from rfl]
    rw [ih]

/-! ### The claims -/

/-- Claim C1 (counterexample): for the scenario-1 input with
`chunk_size=20`, `_split_text` does not return
`["The sky is blue.", "Grass is green.", "Water is wet."]`. -/
theorem scenario1_claimed_chunks_false :
    split_text (pyStr "The sky is blue. Grass is green. Water is wet.") 20 ≠
      [pyStr "The sky is blue.", pyStr "Grass is green.",
        pyStr "Water is wet."] := by
  decide

/-- Claim C1 (amended): for the scenario-1 input with `chunk_size=20`,
`_split_text` returns `["The sky is blue.", "Grass is green.",
"Water is wet.."]` — the final fragment already ends in a period and the
splitter appends its `". "` delimiter anyway, so the last chunk carries
a double period. -/
theorem scenario1_chunks :
    split_text (pyStr "The sky is blue. Grass is green. Water is wet.") 20 =
      [pyStr "The sky is blue.", pyStr "Grass is green.",
        pyStr "Water is wet.."] := by
  rfl

/-- Claim C2 (counterexample): `_split_text` on the empty input text does
not return the empty chunk sequence (Python's `"".split(". ")` is
`[""]`, so the loop builds the running chunk `". "` whose strip `"."`
is flushed). -/
theorem empty_text_chunks_nonempty : ¬(split_text (pyStr "") = []) := by
  decide

/-- Claim C2 (amended): on the empty input text `_split_text` returns
the single-chunk sequence `["."]`, so `process_document` does not take
its empty-chunk early return: with a pointwise embedding provider it
proceeds to embed and index that one chunk (still without raising). -/
theorem empty_text_single_chunk (V : Type) (f : PyStr → V)
    (old : List (Entry V)) :
    split_text (pyStr "") = [pyStr "."] ∧
      process_document (fun ts => ts.map f) old (pyStr "") =
        .indexed [⟨pyStr "0", f (pyStr "."), pyStr "."⟩] := by
  refine ⟨rfl, ?_⟩
  rw [process_document_eq f old (pyStr "") (by decide),
    show split_text (pyStr "") = [pyStr "."] from rfl,
    show List.map f [pyStr "."] = [f (pyStr ".")] from rfl,
    vectors_to_upsert_cons]
  simp

/-- Claim C3 (counterexample): `Chatbot.respond` on a session whose
vector store has no initialized index does make a provider call — it
invokes the generation provider (`co.chat_stream`) once. -/
theorem respond_uninitialized_calls_generation :
    ¬((respond (fun _ => (0 : Nat)) (fun _ _ => []) (fun _ _ _ => [])
        none (fun _ _ => (0 : Nat)) (pyStr "hi")).2.gen = 0) := by
  decide

/-- Claim C3 (amended): when `respond` is called with no initialized
index, the retrieval step returns no documents and makes no embedding,
index-query or rerank call, but `respond` still calls the generation
provider exactly once, with an empty grounding-document list, and
returns its stream (no "not ready" result is signalled to the caller). -/
theorem respond_uninitialized (V S : Type) (embedQuery : PyStr → V)
    (queryIndex : V → Nat → List Meta)
    (rerank : PyStr → List PyStr → Nat → List Nat)
    (chat : PyStr → List Meta → S) (msg : PyStr) :
    respond embedQuery queryIndex rerank none chat msg =
      (chat msg [], ⟨0, 0, 0, 1⟩) := by
  simp [respond, retrieve, dedupByText, dedupAux]

/-- Claim C4 (counterexample): with `chunk_size=1` and input `"a. b"`,
`_split_text` returns `["", "a.", "b."]`; the chunk `"a."` has length 2
> 1, yet no fragment of the input has length strictly exceeding 1, so
the claimed exception (a single fragment whose length alone exceeds
`chunk_size`) does not cover it. -/
theorem chunk_bound_claim_false :
    ¬(∀ chunk ∈ split_text (pyStr "a. b") 1,
        chunk.length ≤ 1 ∨ ∃ s ∈ splitDot (pyStr "a. b"),
          1 < s.length ∧ chunk = strip (s ++ dotSpace)) := by
  decide

/-- Claim C4 (amended): every chunk produced by `_split_text` has length
at most `chunk_size`, except possibly a chunk that is a single
`". "`-delimited fragment (stripped, with its appended delimiter) whose
fragment length is at least `chunk_size` — the appended period can push
a chunk one character past the cap even when the fragment's own length
equals `chunk_size`. -/
theorem split_text_chunk_bound (text : PyStr) (cs : Nat) :
    ∀ chunk ∈ split_text text cs,
      chunk.length ≤ cs ∨
        ∃ s ∈ splitDot text, cs ≤ s.length ∧ chunk = strip (s ++ dotSpace) :=
  splitLoop_chunk_bound cs (splitDot text) (splitDot text) []
    (fun _ hx => hx) (Or.inl rfl)

/-- Claim C4 witness: the bound instantiated on the chunk `"ab."` of
`_split_text("ab", 5)`. -/
theorem split_text_chunk_bound_witness :
    pyStr "ab." ∈ split_text (pyStr "ab") 5 ∧
      ((pyStr "ab.").length ≤ 5 ∨
        ∃ s ∈ splitDot (pyStr "ab"), 5 ≤ s.length ∧
          pyStr "ab." = strip (s ++ dotSpace)) :=
  ⟨by decide, split_text_chunk_bound (pyStr "ab") 5 (pyStr "ab.") (by decide)⟩

/-- Claim C5: `retrieve` on a never-initialized index returns the empty
result with no provider call, and when the index query yields zero
candidate matches it returns the empty result after one embedding call
and one index query, without invoking the reranker. -/
theorem retrieve_uninitialized_or_empty (V : Type) (embedQuery : PyStr → V)
    (queryIndex : V → Nat → List Meta)
    (rerank : PyStr → List PyStr → Nat → List Nat) (q : PyStr) :
    retrieve embedQuery queryIndex rerank none q = ([], ⟨0, 0, 0⟩) ∧
      (queryIndex (embedQuery q) retrieve_top_k = [] →
        retrieve embedQuery queryIndex rerank (some ()) q = ([], ⟨1, 1, 0⟩)) := by
  refine ⟨rfl, fun h => ?_⟩
  simp [retrieve, h]

/-- Claim C5 witness: both parts instantiated with an index whose query
returns no matches. -/
theorem retrieve_uninitialized_or_empty_witness :
    (retrieve (fun _ => (0 : Nat)) (fun _ _ => []) (fun _ _ _ => [])
        none (pyStr "q") = ([], ⟨0, 0, 0⟩)) ∧
      (retrieve (fun _ => (0 : Nat)) (fun _ _ => []) (fun _ _ _ => [])
        (some ()) (pyStr "q") = ([], ⟨1, 1, 0⟩)) :=
  ⟨(retrieve_uninitialized_or_empty Nat (fun _ => 0) (fun _ _ => [])
      (fun _ _ _ => []) (pyStr "q")).1,
    (retrieve_uninitialized_or_empty Nat (fun _ => 0) (fun _ _ => [])
      (fun _ _ _ => []) (pyStr "q")).2 rfl⟩

/-- Claim C6: indexing a document's `n` chunks clears the previous index
content entirely and upserts exactly the `n` enumerated entries keyed
`str(0)..str(n-1)` with payload text equal to the chunks, in batches of
at most 100; the result does not depend on the old content, so after
ingesting document B following document A only B's chunks remain, with
ids re-based at 0. -/
theorem index_replace_all (V : Type) (chunks : List PyStr)
    (embeddings : List V) (old : List (Entry V))
    (hlen : embeddings.length = chunks.length) :
    index_chunks chunks embeddings old = vectors_to_upsert chunks embeddings ∧
      (vectors_to_upsert chunks embeddings).map Entry.id =
        (List.range chunks.length).map strNat ∧
      (vectors_to_upsert chunks embeddings).map Entry.text = chunks ∧
      (vectors_to_upsert chunks embeddings).length = chunks.length ∧
      ∀ b ∈ rangeBatches 100 (vectors_to_upsert chunks embeddings) 0,
        b.length ≤ 100 := by
  refine ⟨index_chunks_eq chunks embeddings old, ?_, ?_, ?_, ?_⟩
  · rw [vectors_to_upsert_ids, List.length_zip, hlen, min_self]
  · rw [vectors_to_upsert_texts, List.map_fst_zip _ _ (le_of_eq hlen.symm)]
  · unfold vectors_to_upsert
    simp [List.length_zip, hlen]
  · exact fun b hb => batch_mem_length_le hb

/-- Claim C6 witness: replacement of a one-entry index by two new
chunks. -/
theorem index_replace_all_witness :
    ([1, 2] : List Nat).length = [pyStr "a", pyStr "b"].length ∧
      index_chunks [pyStr "a", pyStr "b"] [1, 2] [⟨pyStr "0", 7, pyStr "z"⟩] =
        vectors_to_upsert [pyStr "a", pyStr "b"] [1, 2] ∧
      (vectors_to_upsert [pyStr "a", pyStr "b"] [1, 2]).map Entry.id =
        (List.range [pyStr "a", pyStr "b"].length).map strNat ∧
      (vectors_to_upsert [pyStr "a", pyStr "b"] [1, 2]).map Entry.text =
        [pyStr "a", pyStr "b"] ∧
      (vectors_to_upsert [pyStr "a", pyStr "b"] [1, 2]).length =
        [pyStr "a", pyStr "b"].length ∧
      ∀ b ∈ rangeBatches 100 (vectors_to_upsert [pyStr "a", pyStr "b"] [1, 2]) 0,
        b.length ≤ 100 :=
  ⟨rfl, index_replace_all Nat [pyStr "a", pyStr "b"] [1, 2]
    [⟨pyStr "0", 7, pyStr "z"⟩] rfl⟩

/-- Claim C7: the de-duplication step of `respond` keeps a subsequence
of the retrieved documents whose texts are pairwise distinct, keeps for
every distinct text its first-seen occurrence (it is what `find?` by
that text returns), covers every retrieved text, collapses two
identical-text documents to the first one, and `respond` passes the
generation model exactly the de-duplicated retrieved documents. -/
theorem respond_dedup (docs : List Meta) :
    (dedupByText docs).Sublist docs ∧
      ((dedupByText docs).map Meta.text).Nodup ∧
      (∀ d ∈ docs, ∃ d' ∈ dedupByText docs, d'.text = d.text) ∧
      (∀ d' ∈ dedupByText docs,
        docs.find? (fun d => decide (d.text = d'.text)) = some d') ∧
      (∀ d1 d2 : Meta, d1.text = d2.text → dedupByText [d1, d2] = [d1]) ∧
      (∀ (V S : Type) (embedQuery : PyStr → V)
          (queryIndex : V → Nat → List Meta)
          (rerank : PyStr → List PyStr → Nat → List Nat)
          (index : Option Unit) (chat : PyStr → List Meta → S) (msg : PyStr),
        (respond embedQuery queryIndex rerank index chat msg).1 =
          chat msg (dedupByText (retrieve embedQuery queryIndex rerank index msg).1)) := by
  refine ⟨dedupAux_sublist docs [], dedupAux_texts_nodup docs [],
    fun d hd => ?_, fun d' hd' => (dedupAux_find docs [] d' hd').2,
    dedupByText_pair, fun V S eq qi rr idx chat msg => by simp [respond]⟩
  rcases dedupAux_covers docs [] d hd with h | h
  · simp at h
  · exact h

/-- Claim C7 witness: two retrieved documents with the identical text
`"a"` yield exactly the one first-seen entry. -/
theorem respond_dedup_witness :
    (dedupByText [⟨pyStr "a"⟩, ⟨pyStr "a"⟩]).Sublist
        [⟨pyStr "a"⟩, ⟨pyStr "a"⟩] ∧
      dedupByText [⟨pyStr "a"⟩, ⟨pyStr "a"⟩] = [⟨pyStr "a"⟩] :=
  ⟨(respond_dedup [⟨pyStr "a"⟩, ⟨pyStr "a"⟩]).1,
    (respond_dedup [⟨pyStr "a"⟩, ⟨pyStr "a"⟩]).2.2.2.2.1
      ⟨pyStr "a"⟩ ⟨pyStr "a"⟩ rfl⟩

/-- Claim C8: `_embed_chunks` splits its input into batches of at most
90 texts, and when the provider embeds each text independently the
batched result is one vector per input text in input order — identical
to a single unbatched call, so batch boundaries are invisible in the
output. -/
theorem embed_batching (τ υ : Type) (f : τ → υ) (chunks : List τ) :
    embed_chunks (fun ts => ts.map f) chunks 90 =
        (fun ts => ts.map f) chunks ∧
      ∀ b ∈ rangeBatches 90 chunks 0, b.length ≤ 90 :=
  ⟨embed_chunks_map f chunks 90 (by omega),
    fun _ hb => batch_mem_length_le hb⟩

/-- Claim C8 witness: a three-element list embedded with the successor
function in one batch of three. -/
theorem embed_batching_witness :
    embed_chunks (fun ts => ts.map (fun n : Nat => n + 1)) [1, 2, 3] 90 =
        (fun ts => ts.map (fun n : Nat => n + 1)) [1, 2, 3] ∧
      ([1, 2, 3] : List Nat).length ≤ 90 :=
  ⟨(embed_batching Nat Nat (fun n => n + 1) [1, 2, 3]).1,
    (embed_batching Nat Nat (fun n => n + 1) [1, 2, 3]).2 [1, 2, 3]
      (by rw [rangeBatches_cons (by simp)]
          exact List.mem_cons_self _ _)⟩

/-- Claim C9: for every input string — the empty string included —
`_split_text` returns at least one chunk, at every chunk size, so the
empty-chunk early-return branch of `process_document` is never taken
for any extracted text. -/
theorem split_never_empty (text : PyStr) (cs : Nat) :
    split_text text cs ≠ [] ∧
      ∀ (V : Type) (embed : List PyStr → List V) (old : List (Entry V)),
        process_document embed old text ≠ .noChunks := by
  refine ⟨split_text_ne_nil text cs, fun V embed old => ?_⟩
  simp only [process_document]
  rw [if_neg (split_text_ne_nil text 1000)]
  split <;> simp

/-- Claim C9 witness: the empty text still yields a chunk, and
`process_document` on it does not take the no-chunks branch. -/
theorem split_never_empty_witness :
    split_text (pyStr "") 5 ≠ [] ∧
      process_document (fun ts => ts.map (fun _ => (0 : Nat))) [] (pyStr "") ≠
        .noChunks :=
  ⟨(split_never_empty (pyStr "") 5).1,
    (split_never_empty (pyStr "") 5).2 Nat (fun ts => ts.map (fun _ => 0)) []⟩

/-- Claim C10: whenever the first `". "`-delimited fragment of the text
has length at least the chunk size 1000 used by the pipeline, the very
first chunk `_split_text` emits is the empty string (the initial flush
strips the empty running chunk), and `process_document` embeds it and
upserts it into the index like any other chunk: the first indexed entry
is `{id: "0", values: f(""), text: ""}`. -/
theorem oversized_first_fragment_empty_chunk (V : Type) (f : PyStr → V)
    (old : List (Entry V)) (text : PyStr)
    (h : 1000 ≤ ((splitDot text).headI).length) :
    (split_text text).head? = some [] ∧
      ∃ rest, process_document (fun ts => ts.map f) old text =
        .indexed (Entry.mk (pyStr "0") (f []) [] :: rest) := by
  rcases hsd : splitDot text with _ | ⟨s, frags⟩
  · exact absurd hsd (splitDot_ne_nil text)
  rw [hsd] at h
  simp only [List.headI] at h
  have hsplit : split_text text = [] :: splitLoop 1000 frags (s ++ dotSpace) := by
    unfold split_text
    rw [hsd, splitLoop, if_neg (by simp; omega)]
    rfl
  have hne : split_text text ≠ [] := by rw [hsplit]; simp
  refine ⟨by rw [hsplit]; rfl, ?_⟩
  rw [process_document_eq f old text hne, hsplit, List.map_cons,
    vectors_to_upsert_cons]
  exact ⟨_, rfl⟩

/-- Claim C10 witness: a text that is a single 1000-character fragment,
embedded by a constant provider over an empty previous index. -/
theorem oversized_first_fragment_empty_chunk_witness :
    1000 ≤ ((splitDot (List.replicate 1000 'a')).headI).length ∧
      ((split_text (List.replicate 1000 'a')).head? = some [] ∧
        ∃ rest, process_document (fun ts => ts.map (fun _ => (0 : Nat))) []
            (List.replicate 1000 'a') =
          .indexed (Entry.mk (pyStr "0") 0 [] :: rest)) :=
  have hh : 1000 ≤ ((splitDot (List.replicate 1000 'a')).headI).length := by
    rw [splitDot_replicate]
    show 1000 ≤ (List.replicate 1000 'a').length
    rw [List.length_replicate]
  ⟨hh, oversized_first_fragment_empty_chunk Nat (fun _ => 0) []
    (List.replicate 1000 'a') hh⟩

end RagQA
